import Mathlib

/-!
Verification development for `shift_watcher.py`, a scanner that fetches
pages, extracts SHIFT-code candidates from their visible text with regex
heuristics, stores newly seen codes in a uniquely-keyed store, and
notifies configured channels about the new batch.

Strings are modelled as `List Char`.  The three regular expressions of
`CODE_PATTERNS` use only bounded repetition, character classes and the
word-boundary assertion, so they are embedded with a small backtracking
matcher whose match-priority order (leftmost position, greedy bounded
repetition) coincides with Python's `re` engine on these patterns.
-/

abbrev Str := List Char

/-- Convert a Lean string literal to the `List Char` model. -/
def toS (s : String) : Str := s.data

/-- Python `\w` on the ASCII range: letters, digits and underscore. -/
def isWordChar (c : Char) : Bool :=
  (65 ≤ c.toNat && c.toNat ≤ 90) || (97 ≤ c.toNat && c.toNat ≤ 122) ||
  (48 ≤ c.toNat && c.toNat ≤ 57) || c = '_'

/-- Python `\s` on the ASCII range: space, tab, newline, CR, FF, VT. -/
def isPySpace (c : Char) : Bool :=
  c = ' ' || c = '\t' || c = '\n' || c = '\x0d' || c = '\x0b' || c = '\x0c'

/-- The character class `[A-Z0-9]`. -/
def isUpperAlnum (c : Char) : Bool :=
  (65 ≤ c.toNat && c.toNat ≤ 90) || (48 ≤ c.toNat && c.toNat ≤ 57)

/-- The character class `[-\s]` (hyphen or whitespace). -/
def isSepChar (c : Char) : Bool :=
  c = '-' || isPySpace c

/-- Regular-expression syntax: empty string, one-character class,
word-boundary assertion, concatenation and prioritized alternation.
Bounded repetition is a derived form (`reRep`). -/
inductive RE : Type
  | eps : RE
  | cls (f : Char → Bool) : RE
  | bnd : RE
  | seq (a b : RE) : RE
  | alt (a b : RE) : RE

/-- Word-boundary test of Python `re` at position `i` of `s`. -/
def atBoundary (s : Str) (i : Nat) : Bool :=
  let wl := match i with
    | 0 => false
    | j + 1 => match s.get? j with
      | some c => isWordChar c
      | none => false
  let wr := match s.get? i with
    | some c => isWordChar c
    | none => false
  wl != wr

/-- All end positions of a match of `r` starting at position `i` of `s`,
in backtracking priority order (first element = the match Python's
backtracking engine commits to). -/
def reEnds (r : RE) (s : Str) (i : Nat) : List Nat :=
  match r with
  | .eps => [i]
  | .cls f =>
    match s.get? i with
    | some c => if f c then [i + 1] else []
    | none => []
  | .bnd => if atBoundary s i then [i] else []
  | .seq a b => (reEnds a s i).flatMap (fun j => reEnds b s j)
  | .alt a b => reEnds a s i ++ reEnds b s i

/-- `r` repeated exactly `n` times. -/
def reSeqN : Nat → RE → RE
  | 0, _ => .eps
  | n + 1, r => .seq r (reSeqN n r)

/-- Up to `n` further greedy repetitions of `r` (prefer taking one more). -/
def reOptChain : Nat → RE → RE
  | 0, _ => .eps
  | n + 1, r => .alt (.seq r (reOptChain n r)) .eps

/-- Greedy bounded repetition `r{lo,hi}` as in Python `re`. -/
def reRep (r : RE) (lo hi : Nat) : RE :=
  .seq (reSeqN lo r) (reOptChain (hi - lo) r)

/-- A literal character, matched case-insensitively (`re.IGNORECASE`). -/
def reLitCI (c : Char) : RE :=
  .cls (fun x => x.toLower = c.toLower)

/-- Concatenation of a list of regular expressions. -/
def reSeqList (rs : List RE) : RE :=
  rs.foldr RE.seq .eps

/-- A group `[A-Z0-9]{4,6}`. -/
def reGroup : RE := reRep (.cls isUpperAlnum) 4 6

/-- `CODE_PATTERNS[0]`: `\b[A-Z0-9]{4,6}(?:[-\s][A-Z0-9]{4,6}){1,4}\b`. -/
def rePattern0 : RE :=
  reSeqList [.bnd, reGroup, reRep (.seq (.cls isSepChar) reGroup) 1 4, .bnd]

/-- `CODE_PATTERNS[1]`:
`\bSHIFT[-\s]?[A-Z0-9]{4,6}(?:[-\s][A-Z0-9]{4,6}){1,4}\b` (IGNORECASE). -/
def rePattern1 : RE :=
  reSeqList [.bnd, reLitCI 'S', reLitCI 'H', reLitCI 'I', reLitCI 'F',
    reLitCI 'T', reRep (.cls isSepChar) 0 1, reGroup,
    reRep (.seq (.cls isSepChar) reGroup) 1 4, .bnd]

/-- `CODE_PATTERNS[2]`: `\b[A-Z0-9]{10,20}\b`. -/
def rePattern2 : RE :=
  reSeqList [.bnd, reRep (.cls isUpperAlnum) 10 20, .bnd]

/-- The ordered, fixed list of pattern matchers `CODE_PATTERNS`. -/
def CODE_PATTERNS : List RE := [rePattern0, rePattern1, rePattern2]

/-- End position of the match the backtracking engine commits to at
start position `i`, if any. -/
def firstMatchEnd (r : RE) (s : Str) (i : Nat) : Option Nat :=
  (reEnds r s i).head?

/-- Scanning loop of `re.findall`: leftmost, non-overlapping matches. -/
def findallAux (r : RE) (s : Str) : Nat → Nat → List Str
  | 0, _ => []
  | fuel + 1, i =>
    if i > s.length then []
    else
      match firstMatchEnd r s i with
      | some j =>
        if i < j then ((s.drop i).take (j - i)) :: findallAux r s fuel j
        else ((s.drop i).take 0) :: findallAux r s fuel (i + 1)
      | none =>
        if i = s.length then [] else findallAux r s fuel (i + 1)

/-- `pat.findall(s)` for a pattern without capture groups. -/
def findall (r : RE) (s : Str) : List Str :=
  findallAux r s (s.length + 1) 0

/-- Python `str.upper()` on the ASCII range. -/
def pyUpper (s : Str) : Str := s.map Char.toUpper

/-- `text.replace(u2013, "-").replace(u2014, "-")`: en- and em-dashes
become ASCII hyphens. -/
def replaceDashes (s : Str) : Str :=
  s.map (fun c => if c.toNat = 0x2013 || c.toNat = 0x2014 then '-' else c)

/-- Python `str.strip()`: drop leading and trailing whitespace. -/
def pyStrip (s : Str) : Str :=
  ((s.dropWhile isPySpace).reverse.dropWhile isPySpace).reverse

/-- `re.sub(r"[\s]+", "-", s)`: each maximal whitespace run becomes one
hyphen. -/
def collapseWs : Str → Str
  | [] => []
  | [c] => if isPySpace c then ['-'] else [c]
  | c :: d :: rest =>
    if isPySpace c then
      if isPySpace d then collapseWs (d :: rest)
      else '-' :: collapseWs (d :: rest)
    else c :: collapseWs (d :: rest)

/-- `token.strip("-.,;:")`: drop the edge punctuation characters. -/
def stripEdgePunct (s : Str) : Str :=
  let p : Char → Bool := fun c => c = '-' || c = '.' || c = ',' || c = ';' || c = ':'
  ((s.dropWhile p).reverse.dropWhile p).reverse

/-- The per-match body of the `find_codes_in_text` loop: normalize the
match; keep it only when the pre-punctuation-strip length is at least 8. -/
def processMatch (m : Str) : Option Str :=
  let token := collapseWs (pyStrip m)
  if 8 ≤ token.length then some (stripEdgePunct token) else none

/-- Lexicographic (code-point) comparison of Python strings, strictly. -/
def strLt : Str → Str → Bool
  | [], [] => false
  | [], _ :: _ => true
  | _ :: _, [] => false
  | a :: as, b :: bs => if a = b then strLt as bs else a.toNat < b.toNat

/-- Non-strict code-point comparison. -/
def strLe (a b : Str) : Bool := strLt a b || a = b

/-- Insert into a list sorted by `strLe`. -/
def insSorted (x : Str) : List Str → List Str
  | [] => [x]
  | y :: ys => if strLe x y then x :: y :: ys else y :: insSorted x ys

/-- Insertion sort by code-point order (`sorted` on a set of strings). -/
def sortStrs : List Str → List Str
  | [] => []
  | x :: xs => insSorted x (sortStrs xs)

/-- `find_codes_in_text`: normalize, run every pattern over the full
normalized text, post-process matches, deduplicate in a set and return
the set sorted ascending. -/
def find_codes_in_text (text : Str) : List Str :=
  let norm := replaceDashes (pyUpper text)
  let tokens :=
    CODE_PATTERNS.flatMap (fun pat => (findall pat norm).filterMap processMatch)
  sortStrs tokens.eraseDups

/-- A persisted row of the `codes` table:
`(code TEXT UNIQUE, source TEXT, discovered_at INTEGER)`. -/
structure CodeRecord where
  code : Str
  source : Str
  discovered_at : Nat
deriving DecidableEq

/-- The codes currently present in the store (the `UNIQUE` column). -/
def codesOf (st : List CodeRecord) : List Str :=
  st.map (fun r => r.code)

/-- Outcome of one `INSERT` under the `UNIQUE` constraint: the row is
inserted, or the duplicate-key condition is reported (the
`sqlite3.IntegrityError` absorbed by `store_new_codes`). -/
inductive InsertResult : Type
  | Inserted : InsertResult
  | AlreadyExists : InsertResult
deriving DecidableEq

/-- One `INSERT INTO codes (code, source, discovered_at) VALUES (?,?,?)`:
the storage layer enforces uniqueness of `code` itself. -/
def insertCode (st : List CodeRecord) (code source : Str) (now : Nat) :
    InsertResult × List CodeRecord :=
  if code ∈ codesOf st then (.AlreadyExists, st)
  else (.Inserted, st ++ [⟨code, source, now⟩])

/-- `init_db`: `CREATE TABLE IF NOT EXISTS` — keep an existing table,
create an empty one otherwise. -/
def init_db (existing : Option (List CodeRecord)) : List CodeRecord :=
  existing.getD []

/-- `store_new_codes`: one timestamp `now = int(time.time())` sampled
before the loop; each pair is inserted, `IntegrityError` (duplicate) is
absorbed; returns the list of pairs actually inserted and the final
store. -/
def store_new_codes (st : List CodeRecord) (codes_with_sources : List (Str × Str))
    (now : Nat) : List (Str × Str) × List CodeRecord :=
  match codes_with_sources with
  | [] => ([], st)
  | (code, source) :: rest =>
    match insertCode st code source now with
    | (InsertResult.Inserted, st1) =>
      let r := store_new_codes st1 rest now
      ((code, source) :: r.1, r.2)
    | (InsertResult.AlreadyExists, st1) => store_new_codes st1 rest now

/-- A parsed HTML node as produced by the external parser: a text node
or an element with a (lowercased) tag and children. -/
inductive HNode : Type
  | text (s : Str) : HNode
  | elem (tag : Str) (children : List HNode) : HNode

/-- The tag list of `extract_text_from_html`, verbatim from the source:
`soup(["scipt", "style", "head", "noscript"])`. -/
def SOUP_STRIP_TAGS : List Str :=
  [toS "scipt", toS "style", toS "head", toS "noscript"]

mutual
/-- `s.extract()` applied over one node: drop the node when its tag is
in `tags`, otherwise keep it with its surviving children. -/
def stripNode (tags : List Str) : HNode → Option HNode
  | .text s => some (.text s)
  | .elem t cs =>
    if t ∈ tags then none else some (.elem t (stripNodes tags cs))

/-- `stripNode` over a forest, keeping document order. -/
def stripNodes (tags : List Str) : List HNode → List HNode
  | [] => []
  | n :: ns =>
    match stripNode tags n with
    | some m => m :: stripNodes tags ns
    | none => stripNodes tags ns
end

mutual
/-- The text-node strings of a node in document order. -/
def nodeTexts : HNode → List Str
  | .text s => [s]
  | .elem _ cs => nodesTexts cs

/-- The text-node strings of a forest in document order. -/
def nodesTexts : List HNode → List Str
  | [] => []
  | n :: ns => nodeTexts n ++ nodesTexts ns
end

/-- `extract_text_from_html` on an already-parsed document: remove the
subtrees whose tag is listed in `SOUP_STRIP_TAGS`, then
`get_text(separator="\n")` — join the remaining text nodes with
newlines. -/
def extract_text_from_html (doc : List HNode) : Str :=
  List.intercalate (toS "\n") (nodesTexts (stripNodes SOUP_STRIP_TAGS doc))

/-- A configured source descriptor: `{"url": ..., "type": ...}` where
the `type` key may be absent. -/
structure Source where
  url : Str
  type? : Option Str
deriving DecidableEq

/-- An exception caught by the per-source `try`/`except` (network
failure, bad status, or a parse failure in extraction). -/
inductive SourceErr : Type
  | fetchFailed : SourceErr
  | extractFailed : SourceErr
deriving DecidableEq

/-- The value `"html"` of the `type` default `src.get("type", "html")`. -/
def htmlType : Str := toS "html"

/-- The body of one iteration of the `scan_sources` loop, with the
external collaborators as oracles: `fetchRes url` is the outcome of
`fetch_url(url)`, `parse` of `BeautifulSoup(html, "html.parser")`.  A
raised error anywhere in the `try` block makes the source contribute
nothing. -/
def processSource (parse : Str → Except SourceErr (List HNode))
    (fetchRes : Str → Except SourceErr Str) (src : Source) :
    List (Str × Str) :=
  match fetchRes src.url with
  | .error _ => []
  | .ok raw =>
    let typ := src.type?.getD htmlType
    let textE : Except SourceErr Str :=
      if typ = htmlType then (parse raw).map extract_text_from_html
      else .ok raw
    match textE with
    | .error _ => []
    | .ok text => (find_codes_in_text text).map (fun code => (code, src.url))

/-- `scan_sources`: process every source in order, accumulating the
`(code, url)` pairs of the sources that succeed. -/
def scan_sources (parse : Str → Except SourceErr (List HNode))
    (fetchRes : Str → Except SourceErr Str) : List Source → List (Str × Str)
  | [] => []
  | src :: rest =>
    processSource parse fetchRes src ++ scan_sources parse fetchRes rest

/-- The first-occurrence deduplication of `main`:
`if code not in by_code: by_code[code] = src`, keeping dict insertion
order; `seen` holds the codes already attributed. -/
def dedupByCodeAux (seen : List Str) : List (Str × Str) → List (Str × Str)
  | [] => []
  | (c, s) :: rest =>
    if c ∈ seen then dedupByCodeAux seen rest
    else (c, s) :: dedupByCodeAux (c :: seen) rest

/-- Python tuple comparison on `(code, source)` pairs. -/
def pairLe (p q : Str × Str) : Bool :=
  strLt p.1 q.1 || (p.1 = q.1 && strLe p.2 q.2)

/-- Insert into a list sorted by `pairLe`. -/
def insPairSorted (x : Str × Str) : List (Str × Str) → List (Str × Str)
  | [] => [x]
  | y :: ys => if pairLe x y then x :: y :: ys else y :: insPairSorted x ys

/-- `sorted` on the `(code, by_code[code])` pairs. -/
def sortPairs : List (Str × Str) → List (Str × Str)
  | [] => []
  | x :: xs => insPairSorted x (sortPairs xs)

/-- The aggregation step of `main`: first-occurrence attribution per
code, then the pairs sorted ascending. -/
def aggregatePairs (found : List (Str × Str)) : List (Str × Str) :=
  sortPairs (dedupByCodeAux [] found)

/-- The attributed source of `code` in a run's raw result list: the
source of its first occurrence in iteration order. -/
def firstSourceOf (found : List (Str × Str)) (code : Str) : Option Str :=
  (found.find? (fun p => p.1 = code)).map (fun p => p.2)

/-- Outcome of one notification channel in one run. -/
inductive NotifyAttempt : Type
  | skipped : NotifyAttempt
  | succeeded : NotifyAttempt
  | failed : NotifyAttempt
deriving DecidableEq

/-- A delivery failure raised by one notification channel. -/
inductive NotifyErr : Type
  | deliveryFailed : NotifyErr
deriving DecidableEq

/-- One guarded, caught channel attempt of `main`: the channel is
attempted only when configured; a raised delivery error is caught at
the per-channel boundary (`except ... print`). -/
def attemptOutcome (cond : Bool) (send : Except NotifyErr Unit) : NotifyAttempt :=
  if cond then
    match send with
    | .ok _ => .succeeded
    | .error _ => .failed
  else .skipped

/-- The observable result of the store-and-notify phase of `main`. -/
structure RunResult where
  store : List CodeRecord
  newBatch : List (Str × Str)
  webhookOutcome : NotifyAttempt
  emailOutcome : NotifyAttempt
deriving DecidableEq

/-- The store-and-notify phase of `main` (lines after aggregation):
store the pairs, and when the new batch is non-empty attempt the
webhook channel (if a url is configured) and then the email channel
(if an email config with a host is present), each in its own
`try`/`except`.  `webhookSend` and `emailSend` are the delivery
outcomes of the external transports. -/
def runStoreAndNotify (st : List CodeRecord) (pairs : List (Str × Str)) (now : Nat)
    (webhookUrl : Str) (emailHost : Option Str)
    (webhookSend emailSend : Except NotifyErr Unit) : RunResult :=
  let r := store_new_codes st pairs now
  if r.1 = [] then
    { store := r.2, newBatch := r.1
      webhookOutcome := .skipped, emailOutcome := .skipped }
  else
    { store := r.2, newBatch := r.1
      webhookOutcome := attemptOutcome (!webhookUrl.isEmpty) webhookSend
      emailOutcome :=
        attemptOutcome (emailHost.any (fun h => !h.isEmpty)) emailSend }

/-! ## Theorems -/

set_option maxRecDepth 10000

/-- A parsed page whose script element holds text: the input exhibiting
the mismatch between the strip list of the code (`"scipt"`) and the
script elements it was meant to remove. -/
def scriptLeakDoc : List HNode :=
  [.elem (toS "html")
    [.elem (toS "head") [.elem (toS "title") [.text (toS "T")]],
     .elem (toS "body")
       [.elem (toS "script") [.text (toS "SECRETCODE")],
        .text (toS "Hello")]]]

/-- Claim C1: the spec says `extract_text_from_html` removes the
subtrees rooted at script, style, head and noscript elements, so text
inside a script element never occurs in the result.  The code's strip
list reads `"scipt"`, so on `scriptLeakDoc` the head subtree is removed
but the script subtree survives and its text `SECRETCODE` occurs in the
returned string — the code contradicts its own comment (`Remove
scripts/styles`). -/
theorem c1_script_text_survives :
    extract_text_from_html scriptLeakDoc = toS "SECRETCODE\nHello" ∧
    toS "SECRETCODE" <:+: extract_text_from_html scriptLeakDoc := by
  refine ⟨by decide, ?_⟩
  decide

/-- Claim C7: the ordered, fixed matchers applied over the full
normalized text yield a candidate set containing the token
`SHIFT-ABCD-1234-EFGH` on the spec's end-to-end example input. -/
theorem c7_end_to_end_example :
    toS "SHIFT-ABCD-1234-EFGH" ∈
      find_codes_in_text (toS "Redeem code SHIFT-ABCD-1234-EFGH for Golden Keys") := by
  decide

/-- Claim C8: normalization makes the delimiter and case variants
equal — both inputs yield the single normalized token
`ABCD-EFGH-1234`. -/
theorem c8_normalization_equivalence :
    find_codes_in_text (toS "ABCD-EFGH-1234")
        = find_codes_in_text (toS "abcd efgh 1234") ∧
    find_codes_in_text (toS "ABCD-EFGH-1234") = [toS "ABCD-EFGH-1234"] := by
  refine ⟨by decide, ?_⟩
  decide

/-- A store that already holds the code `X`, refuting claim C3's
quantification over every store state. -/
def storeWithX : List CodeRecord :=
  [⟨toS "X", toS "origin", 0⟩]

/-- Claim C3, counterexample: the claim quantifies over every store
state, but on a state already containing `X` the first insertion
attempt yields `AlreadyExists`, not `Inserted`. -/
theorem c3_counterexample_first_attempt_not_inserted :
    (insertCode storeWithX (toS "X") (toS "src") 5).1 ≠ InsertResult.Inserted := by
  decide

/-- Claim C3, amended: for every code X and every store state not yet
containing X, inserting X twice yields `Inserted` then `AlreadyExists`,
the cardinality grows by exactly 1 (not 2), and the duplicate outcome
is an `InsertResult` value, never a raised error. -/
theorem c3_insert_twice_dedup (st : List CodeRecord) (code source source2 : Str)
    (t1 t2 : Nat) (h : code ∉ codesOf st) :
    (insertCode st code source t1).1 = InsertResult.Inserted ∧
    (insertCode (insertCode st code source t1).2 code source2 t2).1 =
      InsertResult.AlreadyExists ∧
    (insertCode (insertCode st code source t1).2 code source2 t2).2.length
      = st.length + 1 := by
  have h2 : code ∈ codesOf (st ++ [⟨code, source, t1⟩]) := by
    simp [codesOf]
  simp [insertCode, h, h2]

/-- Witness for the amended claim C3 at a concrete fresh code and the
empty store. -/
theorem c3_insert_twice_dedup_witness :
    (insertCode [] (toS "X") (toS "a") 1).1 = InsertResult.Inserted ∧
    (insertCode (insertCode [] (toS "X") (toS "a") 1).2 (toS "X") (toS "b") 2).1 =
      InsertResult.AlreadyExists ∧
    (insertCode (insertCode [] (toS "X") (toS "a") 1).2 (toS "X") (toS "b") 2).2.length
      = List.length ([] : List CodeRecord) + 1 :=
  c3_insert_twice_dedup [] (toS "X") (toS "a") (toS "b") 1 2 (by decide)

/-- Records already present survive `store_new_codes`: rows are only
appended, never mutated or deleted. -/
theorem store_new_codes_keeps (pairs : List (Str × Str)) (st : List CodeRecord)
    (now : Nat) (r : CodeRecord) (hr : r ∈ st) :
    r ∈ (store_new_codes st pairs now).2 := by
  induction pairs generalizing st with
  | nil => simpa [store_new_codes] using hr
  | cons p rest ih =>
    obtain ⟨code, source⟩ := p
    by_cases hc : code ∈ codesOf st
    · simpa [store_new_codes, insertCode, hc] using ih st hr
    · simp only [store_new_codes, insertCode, hc, if_false]
      exact ih _ (by simp [hr])

/-- Any record of the final store either was present initially or was
stamped with the single timestamp `now` of this call. -/
theorem store_mem_discovered (pairs : List (Str × Str)) (st : List CodeRecord)
    (now : Nat) (r : CodeRecord) (hr : r ∈ (store_new_codes st pairs now).2) :
    r ∈ st ∨ r.discovered_at = now := by
  induction pairs generalizing st with
  | nil => simp [store_new_codes] at hr; exact Or.inl hr
  | cons p rest ih =>
    obtain ⟨code, source⟩ := p
    by_cases hc : code ∈ codesOf st
    · simp only [store_new_codes, insertCode, hc, if_true] at hr
      exact ih st hr
    · simp only [store_new_codes, insertCode, hc, if_false] at hr
      rcases ih _ hr with h | h
      · rcases List.mem_append.1 h with h | h
        · exact Or.inl h
        · simp at h
          subst h
          exact Or.inr rfl
      · exact Or.inr h

/-- `codesOf` distributes over appending rows. -/
theorem codesOf_append (st l : List CodeRecord) :
    codesOf (st ++ l) = codesOf st ++ codesOf l := by
  simp [codesOf]

/-- Codes present in the store stay present. -/
theorem codesOf_store_keeps (pairs : List (Str × Str)) (st : List CodeRecord)
    (now : Nat) (c : Str) (hc : c ∈ codesOf st) :
    c ∈ codesOf (store_new_codes st pairs now).2 := by
  induction pairs generalizing st with
  | nil => simpa [store_new_codes] using hc
  | cons p rest ih =>
    obtain ⟨code, source⟩ := p
    by_cases h : code ∈ codesOf st
    · simpa [store_new_codes, insertCode, h] using ih st hc
    · simp only [store_new_codes, insertCode, h, if_false]
      exact ih _ (by rw [codesOf_append]; exact List.mem_append_left _ hc)

/-- Every code submitted to `store_new_codes` is present afterwards. -/
theorem codesOf_store_of_pair (pairs : List (Str × Str)) (st : List CodeRecord)
    (now : Nat) (c s : Str) (h : (c, s) ∈ pairs) :
    c ∈ codesOf (store_new_codes st pairs now).2 := by
  induction pairs generalizing st with
  | nil => cases h
  | cons p rest ih =>
    obtain ⟨code, source⟩ := p
    rcases List.mem_cons.1 h with heq | hrest
    · obtain ⟨rfl, rfl⟩ := Prod.mk.injEq .. ▸ heq
      by_cases hc : c ∈ codesOf st
      · simpa [store_new_codes, insertCode, hc] using
          codesOf_store_keeps rest st now c hc
      · simp only [store_new_codes, insertCode, hc, if_false]
        exact codesOf_store_keeps rest _ now c (by simp [codesOf])
    · by_cases hc : code ∈ codesOf st
      · simpa [store_new_codes, insertCode, hc] using ih st hrest
      · simp only [store_new_codes, insertCode, hc, if_false]
        exact ih _ hrest

/-- When every submitted code is already stored, the new batch is
empty. -/
theorem store_new_nil_of_all_seen (pairs : List (Str × Str)) (st : List CodeRecord)
    (now : Nat) (h : ∀ p ∈ pairs, p.1 ∈ codesOf st) :
    (store_new_codes st pairs now).1 = [] := by
  induction pairs generalizing st with
  | nil => simp [store_new_codes]
  | cons p rest ih =>
    obtain ⟨code, source⟩ := p
    have hc : code ∈ codesOf st := h (code, source) (List.mem_cons_self ..)
    simp only [store_new_codes, insertCode, hc, if_true]
    exact ih st (fun q hq => h q (List.mem_cons_of_mem _ hq))

/-- A pair of the new batch was submitted and its code was fresh. -/
theorem store_new_sub (pairs : List (Str × Str)) (st : List CodeRecord)
    (now : Nat) (c s : Str) (h : (c, s) ∈ (store_new_codes st pairs now).1) :
    (c, s) ∈ pairs ∧ c ∉ codesOf st := by
  induction pairs generalizing st with
  | nil => simp [store_new_codes] at h
  | cons p rest ih =>
    obtain ⟨code, source⟩ := p
    by_cases hc : code ∈ codesOf st
    · simp only [store_new_codes, insertCode, hc, if_true] at h
      have := ih st h
      exact ⟨List.mem_cons_of_mem _ this.1, this.2⟩
    · simp only [store_new_codes, insertCode, hc, if_false] at h
      rcases List.mem_cons.1 h with heq | htail
      · obtain ⟨rfl, rfl⟩ := Prod.mk.injEq .. ▸ heq
        exact ⟨List.mem_cons_self .., hc⟩
      · have := ih _ htail
        refine ⟨List.mem_cons_of_mem _ this.1, fun hmem => this.2 ?_⟩
        rw [codesOf_append]
        exact List.mem_append_left _ hmem

/-- A submitted pair whose code is fresh yields an entry of the new
batch for that code. -/
theorem store_new_complete (pairs : List (Str × Str)) (st : List CodeRecord)
    (now : Nat) (c s : Str) (hp : (c, s) ∈ pairs) (hc : c ∉ codesOf st) :
    ∃ t, (c, t) ∈ (store_new_codes st pairs now).1 := by
  induction pairs generalizing st with
  | nil => cases hp
  | cons p rest ih =>
    obtain ⟨code, source⟩ := p
    by_cases h : code ∈ codesOf st
    · simp only [store_new_codes, insertCode, h, if_true]
      rcases List.mem_cons.1 hp with heq | hrest
      · obtain ⟨rfl, rfl⟩ := Prod.mk.injEq .. ▸ heq
        exact absurd h hc
      · exact ih st hrest hc
    · simp only [store_new_codes, insertCode, h, if_false]
      by_cases hcc : c = code
      · subst hcc
        exact ⟨source, List.mem_cons_self ..⟩
      · rcases List.mem_cons.1 hp with heq | hrest
        · obtain ⟨rfl, rfl⟩ := Prod.mk.injEq .. ▸ heq
          exact absurd rfl hcc
        · have hc1 : c ∉ codesOf (st ++ [⟨code, source, now⟩]) := by
            rw [codesOf_append]
            simp only [List.mem_append, not_or]
            exact ⟨hc, by simp [codesOf, hcc]⟩
          obtain ⟨t, ht⟩ := ih _ hrest hc1
          exact ⟨t, List.mem_cons_of_mem _ ht⟩

/-- Claim C9: every record inserted by one `store_new_codes` call
carries the same `discovered_at`: the timestamp is sampled exactly once
before the insertion loop, so any record of the final store that was
not part of the initial store is stamped with that single value. -/
theorem c9_single_timestamp (st : List CodeRecord) (pairs : List (Str × Str))
    (now : Nat) (r : CodeRecord) (hr : r ∈ (store_new_codes st pairs now).2)
    (hnew : r ∉ st) : r.discovered_at = now :=
  (store_mem_discovered pairs st now r hr).resolve_left hnew

/-- Witness for claim C9 at a concrete one-pair batch. -/
theorem c9_single_timestamp_witness :
    (⟨toS "AAAA-BBBB", toS "u", 7⟩ : CodeRecord) ∈
      (store_new_codes [] [(toS "AAAA-BBBB", toS "u")] 7).2 ∧
    (⟨toS "AAAA-BBBB", toS "u", 7⟩ : CodeRecord).discovered_at = 7 :=
  ⟨by decide,
   c9_single_timestamp [] [(toS "AAAA-BBBB", toS "u")] 7 _ (by decide) (by decide)⟩

/-- Claim C2: running the store phase twice over the same pairs, the
first run's new batch holds exactly the codes not previously stored
(and is non-empty as soon as one submitted code is fresh), and the
second run's new batch is empty — inter-run duplication is resolved by
the store's uniqueness check alone. -/
theorem c2_store_phase_idempotent (st : List CodeRecord) (pairs : List (Str × Str))
    (t1 t2 : Nat) :
    (store_new_codes (store_new_codes st pairs t1).2 pairs t2).1 = [] ∧
    (∀ c, (∃ s, (c, s) ∈ (store_new_codes st pairs t1).1) ↔
      ((∃ s, (c, s) ∈ pairs) ∧ c ∉ codesOf st)) ∧
    (∀ p ∈ pairs, p.1 ∉ codesOf st → (store_new_codes st pairs t1).1 ≠ []) := by
  refine ⟨?_, ?_, ?_⟩
  · exact store_new_nil_of_all_seen pairs _ t2
      (fun p hp => codesOf_store_of_pair pairs st t1 p.1 p.2 (by simpa using hp))
  · intro c
    constructor
    · rintro ⟨s, hs⟩
      have h := store_new_sub pairs st t1 c s hs
      exact ⟨⟨s, h.1⟩, h.2⟩
    · rintro ⟨⟨s, hp⟩, hc⟩
      exact store_new_complete pairs st t1 c s hp hc
  · intro p hp hfresh heq
    obtain ⟨t, ht⟩ := store_new_complete pairs st t1 p.1 p.2 (by simpa using hp) hfresh
    rw [heq] at ht
    cases ht

/-- Witness for claim C2: one fresh pair, stored twice. -/
theorem c2_store_phase_idempotent_witness :
    (store_new_codes (store_new_codes [] [(toS "AAAA-BBBB", toS "u1")] 1).2
        [(toS "AAAA-BBBB", toS "u1")] 2).1 = [] ∧
    (store_new_codes ([] : List CodeRecord) [(toS "AAAA-BBBB", toS "u1")] 1).1 ≠ [] :=
  ⟨(c2_store_phase_idempotent [] [(toS "AAAA-BBBB", toS "u1")] 1 2).1,
   (c2_store_phase_idempotent [] [(toS "AAAA-BBBB", toS "u1")] 1 2).2.2
     (toS "AAAA-BBBB", toS "u1") (by decide) (by decide)⟩

/-- `scan_sources` distributes over list append. -/
theorem scan_sources_append (parse : Str → Except SourceErr (List HNode))
    (fetchRes : Str → Except SourceErr Str) (l1 l2 : List Source) :
    scan_sources parse fetchRes (l1 ++ l2)
      = scan_sources parse fetchRes l1 ++ scan_sources parse fetchRes l2 := by
  induction l1 with
  | nil => simp [scan_sources]
  | cons s rest ih => simp [scan_sources, ih]

/-- A source whose fetch raises contributes zero candidates. -/
theorem processSource_eq_nil_of_fetch_error (parse : Str → Except SourceErr (List HNode))
    (fetchRes : Str → Except SourceErr Str) (src : Source) (e : SourceErr)
    (h : fetchRes src.url = Except.error e) :
    processSource parse fetchRes src = [] := by
  simp [processSource, h]

/-- A processed source's pairs are part of the run's accumulated
result whenever the source is in the scanned list. -/
theorem mem_scan_sources_of_mem (parse : Str → Except SourceErr (List HNode))
    (fetchRes : Str → Except SourceErr Str) (sources : List Source) (src : Source)
    (hsrc : src ∈ sources) (p : Str × Str)
    (hp : p ∈ processSource parse fetchRes src) :
    p ∈ scan_sources parse fetchRes sources := by
  induction sources with
  | nil => cases hsrc
  | cons a rest ih =>
    rcases List.mem_cons.1 hsrc with rfl | h
    · exact List.mem_append_left _ hp
    · exact List.mem_append_right _ (ih h)

/-- An HTML source whose fetched markup fails to parse contributes
zero candidates. -/
theorem processSource_eq_nil_of_parse_error (parse : Str → Except SourceErr (List HNode))
    (fetchRes : Str → Except SourceErr Str) (src : Source) (raw : Str) (e : SourceErr)
    (htyp : src.type?.getD htmlType = htmlType)
    (hf : fetchRes src.url = Except.ok raw) (hp : parse raw = Except.error e) :
    processSource parse fetchRes src = [] := by
  simp [processSource, hf, htyp, hp, Except.map]

/-- Claim C5: a fetch failure — or an extraction failure of an HTML
source — is caught at the per-source boundary: the failing source
contributes zero candidates, scanning with it equals scanning without
it, and every pair produced by any other source of the run is still in
the accumulated result. -/
theorem c5_isolated_source_failure (parse : Str → Except SourceErr (List HNode))
    (fetchRes : Str → Except SourceErr Str) (pre post : List Source) (bad : Source)
    (hbad : (∃ e, fetchRes bad.url = Except.error e) ∨
      (bad.type?.getD htmlType = htmlType ∧
        ∃ raw e, fetchRes bad.url = Except.ok raw ∧ parse raw = Except.error e)) :
    processSource parse fetchRes bad = [] ∧
    scan_sources parse fetchRes (pre ++ bad :: post)
      = scan_sources parse fetchRes (pre ++ post) ∧
    ∀ src ∈ pre ++ post, ∀ p ∈ processSource parse fetchRes src,
      p ∈ scan_sources parse fetchRes (pre ++ bad :: post) := by
  have hnil : processSource parse fetchRes bad = [] := by
    rcases hbad with ⟨e, he⟩ | ⟨htyp, raw, e, hf, hp⟩
    · exact processSource_eq_nil_of_fetch_error parse fetchRes bad e he
    · exact processSource_eq_nil_of_parse_error parse fetchRes bad raw e htyp hf hp
  refine ⟨hnil, ?_, ?_⟩
  · rw [scan_sources_append, scan_sources_append]
    have hcons : scan_sources parse fetchRes (bad :: post)
        = processSource parse fetchRes bad ++ scan_sources parse fetchRes post := rfl
    rw [hcons, hnil]
    simp
  · intro src hsrc p hp
    apply mem_scan_sources_of_mem parse fetchRes _ src _ p hp
    rcases List.mem_append.1 hsrc with h | h
    · exact List.mem_append_left _ h
    · exact List.mem_append_right _ (List.mem_cons_of_mem _ h)

/-- A parse oracle for the witnesses: the whole raw text is one text
node. -/
def witnessParse : Str → Except SourceErr (List HNode) :=
  fun raw => Except.ok [HNode.text raw]

/-- A fetch oracle for the witnesses: source `http://a` fails, every
other url returns a page holding one SHIFT code. -/
def witnessFetch : Str → Except SourceErr Str := fun url =>
  if url = toS "http://a" then Except.error SourceErr.fetchFailed
  else Except.ok (toS "SHIFT-AAAA-BBBB-CCCC")

/-- The failing source of the witnesses. -/
def srcA : Source := ⟨toS "http://a", some htmlType⟩

/-- The succeeding plain-text source of the witnesses. -/
def srcB : Source := ⟨toS "http://b", some (toS "text")⟩

/-- A parse oracle for the extraction-failure scenario: the garbled
markup fails to parse, everything else is one text node. -/
def witnessParseFails : Str → Except SourceErr (List HNode) := fun raw =>
  if raw = toS "<garbled" then Except.error SourceErr.extractFailed
  else Except.ok [HNode.text raw]

/-- A fetch oracle for the extraction-failure scenario: source
`http://a` serves the garbled markup, every other url a page holding
one SHIFT code. -/
def witnessFetchGarbled : Str → Except SourceErr Str := fun url =>
  if url = toS "http://a" then Except.ok (toS "<garbled")
  else Except.ok (toS "SHIFT-AAAA-BBBB-CCCC")

/-- Witness for claim C5, exercising both failure modes: source A
fails (first by fetch, then by extraction of its HTML) while source
B's codes are still in the run's result. -/
theorem c5_isolated_source_failure_witness :
    (processSource witnessParse witnessFetch srcA = [] ∧
     scan_sources witnessParse witnessFetch ([] ++ srcA :: [srcB])
       = scan_sources witnessParse witnessFetch ([] ++ [srcB]) ∧
     (toS "SHIFT-AAAA-BBBB-CCCC", toS "http://b")
       ∈ scan_sources witnessParse witnessFetch ([] ++ srcA :: [srcB])) ∧
    (processSource witnessParseFails witnessFetchGarbled srcA = [] ∧
     scan_sources witnessParseFails witnessFetchGarbled ([] ++ srcA :: [srcB])
       = scan_sources witnessParseFails witnessFetchGarbled ([] ++ [srcB]) ∧
     (toS "SHIFT-AAAA-BBBB-CCCC", toS "http://b")
       ∈ scan_sources witnessParseFails witnessFetchGarbled ([] ++ srcA :: [srcB])) := by
  constructor
  · obtain ⟨h1, h2, h3⟩ := c5_isolated_source_failure witnessParse witnessFetch
      [] [srcB] srcA (Or.inl ⟨SourceErr.fetchFailed, rfl⟩)
    exact ⟨h1, h2, h3 srcB (by decide)
      (toS "SHIFT-AAAA-BBBB-CCCC", toS "http://b") (by decide)⟩
  · obtain ⟨h1, h2, h3⟩ := c5_isolated_source_failure witnessParseFails
      witnessFetchGarbled [] [srcB] srcA
      (Or.inr ⟨rfl, toS "<garbled", SourceErr.extractFailed, rfl, rfl⟩)
    exact ⟨h1, h2, h3 srcB (by decide)
      (toS "SHIFT-AAAA-BBBB-CCCC", toS "http://b") (by decide)⟩

/-- Claim C6: for any delivery outcomes, the store after the
store-and-notify phase is exactly what `store_new_codes` committed; the
email channel's outcome does not depend on the webhook delivery
outcome; and with a non-empty batch and a configured email host the
email channel is attempted (not skipped) even when the webhook raised. -/
theorem c6_channel_isolation (st : List CodeRecord) (pairs : List (Str × Str))
    (now : Nat) (webhookUrl : Str) (emailHost : Option Str)
    (wSend wSend2 eSend : Except NotifyErr Unit) :
    (runStoreAndNotify st pairs now webhookUrl emailHost wSend eSend).store
      = (store_new_codes st pairs now).2 ∧
    (runStoreAndNotify st pairs now webhookUrl emailHost wSend eSend).emailOutcome
      = (runStoreAndNotify st pairs now webhookUrl emailHost wSend2 eSend).emailOutcome ∧
    ((store_new_codes st pairs now).1 ≠ [] →
      emailHost.any (fun h => !h.isEmpty) = true →
      (runStoreAndNotify st pairs now webhookUrl emailHost wSend eSend).emailOutcome
        ≠ NotifyAttempt.skipped) := by
  unfold runStoreAndNotify
  by_cases hnil : (store_new_codes st pairs now).1 = []
  · simp [hnil]
  · simp only [hnil, if_false]
    refine ⟨trivial, trivial, fun _ hcfg => ?_⟩
    rw [hcfg]
    cases eSend <;> simp [attemptOutcome]

/-- Witness for claim C6: one fresh code, webhook configured and
failing, email configured and succeeding — the email outcome is not
`skipped` and the store keeps the committed row. -/
theorem c6_channel_isolation_witness :
    (runStoreAndNotify [] [(toS "AAAA-BBBB", toS "u")] 1 (toS "http://w")
        (some (toS "smtp.example")) (Except.error NotifyErr.deliveryFailed)
        (Except.ok ())).store
      = (store_new_codes [] [(toS "AAAA-BBBB", toS "u")] 1).2 ∧
    (runStoreAndNotify [] [(toS "AAAA-BBBB", toS "u")] 1 (toS "http://w")
        (some (toS "smtp.example")) (Except.error NotifyErr.deliveryFailed)
        (Except.ok ())).emailOutcome ≠ NotifyAttempt.skipped :=
  ⟨(c6_channel_isolation [] [(toS "AAAA-BBBB", toS "u")] 1 (toS "http://w")
      (some (toS "smtp.example")) (Except.error NotifyErr.deliveryFailed)
      (Except.ok ()) (Except.ok ())).1,
   (c6_channel_isolation [] [(toS "AAAA-BBBB", toS "u")] 1 (toS "http://w")
      (some (toS "smtp.example")) (Except.error NotifyErr.deliveryFailed)
      (Except.ok ()) (Except.ok ())).2.2 (by decide) (by decide)⟩

/-- Claim C10: a source descriptor without a `type` key is processed
exactly as if its type were `"html"` (extraction applied), and an
explicit non-`"html"` type skips extraction — the fetched raw content
is scanned unchanged. -/
theorem c10_missing_type_defaults_to_html
    (parse : Str → Except SourceErr (List HNode))
    (fetchRes : Str → Except SourceErr Str) (url raw t : Str)
    (ht : t ≠ htmlType) (hf : fetchRes url = Except.ok raw) :
    processSource parse fetchRes ⟨url, none⟩
      = processSource parse fetchRes ⟨url, some htmlType⟩ ∧
    processSource parse fetchRes ⟨url, some t⟩
      = (find_codes_in_text raw).map (fun code => (code, url)) := by
  constructor
  · rfl
  · simp [processSource, hf, ht]

/-- Witness for claim C10 at the witness oracles and a `"text"`
source. -/
theorem c10_missing_type_defaults_to_html_witness :
    processSource witnessParse witnessFetch ⟨toS "http://b", none⟩
      = processSource witnessParse witnessFetch ⟨toS "http://b", some htmlType⟩ ∧
    processSource witnessParse witnessFetch ⟨toS "http://b", some (toS "text")⟩
      = (find_codes_in_text (toS "SHIFT-AAAA-BBBB-CCCC")).map
          (fun code => (code, toS "http://b")) :=
  c10_missing_type_defaults_to_html witnessParse witnessFetch (toS "http://b")
    (toS "SHIFT-AAAA-BBBB-CCCC") (toS "text") (by decide) rfl

/-- Characters with the same code point are equal. -/
theorem char_toNat_inj (c d : Char) (h : c.toNat = d.toNat) : c = d :=
  Char.eq_of_val_eq (UInt32.ext h)

/-- `strLt` never holds reflexively. -/
theorem strLt_irrefl (a : Str) : strLt a a = false := by
  induction a with
  | nil => rfl
  | cons c cs ih => simp [strLt, ih]

/-- Code-point order is trichotomous. -/
theorem strLt_trichotomy (a b : Str) :
    strLt a b = true ∨ a = b ∨ strLt b a = true := by
  induction a generalizing b with
  | nil =>
    cases b with
    | nil => exact Or.inr (Or.inl rfl)
    | cons d ds => exact Or.inl rfl
  | cons c cs ih =>
    cases b with
    | nil => exact Or.inr (Or.inr rfl)
    | cons d ds =>
      by_cases hcd : c = d
      · subst hcd
        rcases ih ds with h | h | h
        · exact Or.inl (by simp [strLt, h])
        · exact Or.inr (Or.inl (by rw [h]))
        · exact Or.inr (Or.inr (by simp [strLt, h]))
      · rcases Nat.lt_trichotomy c.toNat d.toNat with h | h | h
        · exact Or.inl (by simp [strLt, hcd, h])
        · exact absurd (char_toNat_inj c d h) hcd
        · refine Or.inr (Or.inr ?_)
          have hdc : ¬d = c := fun hh => hcd hh.symm
          simp [strLt, hdc, h]

/-- Code-point order is transitive. -/
theorem strLt_trans (a b c : Str) (h1 : strLt a b = true) (h2 : strLt b c = true) :
    strLt a c = true := by
  induction a generalizing b c with
  | nil =>
    cases c with
    | nil =>
      cases b with
      | nil => simp [strLt] at h1
      | cons y ys => simp [strLt] at h2
    | cons z zs => rfl
  | cons x xs ih =>
    cases b with
    | nil => simp [strLt] at h1
    | cons y ys =>
      cases c with
      | nil => simp [strLt] at h2
      | cons z zs =>
        simp only [strLt] at h1 h2 ⊢
        by_cases hxy : x = y
        · subst hxy
          by_cases hyz : x = z
          · subst hyz
            simp only [if_pos rfl] at h1 h2 ⊢
            exact ih ys zs h1 h2
          · simp only [if_pos rfl] at h1
            simp only [hyz, if_false] at h2 ⊢
            exact h2
        · simp only [hxy, if_false] at h1
          by_cases hyz : y = z
          · subst hyz
            simp only [hxy, if_false]
            exact h1
          · simp only [hyz, if_false] at h2
            have hlt : x.toNat < z.toNat :=
              Nat.lt_trans (by exact_mod_cast of_decide_eq_true h1)
                (by exact_mod_cast of_decide_eq_true h2)
            have hxz : ¬x = z := fun hh => by
              subst hh
              exact Nat.lt_irrefl _ hlt
            simp [hxz, hlt]

/-- `strLe` is total. -/
theorem strLe_total (a b : Str) : strLe a b = true ∨ strLe b a = true := by
  rcases strLt_trichotomy a b with h | h | h
  · exact Or.inl (by simp [strLe, h])
  · exact Or.inl (by simp [strLe, h])
  · exact Or.inr (by simp [strLe, h])

/-- `strLe` is transitive. -/
theorem strLe_trans (a b c : Str) (h1 : strLe a b = true) (h2 : strLe b c = true) :
    strLe a c = true := by
  simp only [strLe, Bool.or_eq_true, decide_eq_true_eq] at h1 h2 ⊢
  rcases h1 with h1 | rfl
  · rcases h2 with h2 | rfl
    · exact Or.inl (strLt_trans a b c h1 h2)
    · exact Or.inl h1
  · exact h2

/-- `pairLe` is total. -/
theorem pairLe_total (p q : Str × Str) : pairLe p q = true ∨ pairLe q p = true := by
  rcases strLt_trichotomy p.1 q.1 with h | h | h
  · exact Or.inl (by simp [pairLe, h])
  · rcases strLe_total p.2 q.2 with h2 | h2
    · exact Or.inl (by simp [pairLe, h, h2])
    · exact Or.inr (by simp [pairLe, h.symm, h2])
  · exact Or.inr (by simp [pairLe, h])

/-- `pairLe` is transitive. -/
theorem pairLe_trans (p q r : Str × Str) (h1 : pairLe p q = true)
    (h2 : pairLe q r = true) : pairLe p r = true := by
  simp only [pairLe, Bool.or_eq_true, Bool.and_eq_true, decide_eq_true_eq] at h1 h2 ⊢
  rcases h1 with h1 | ⟨he1, hs1⟩
  · rcases h2 with h2 | ⟨he2, hs2⟩
    · exact Or.inl (strLt_trans _ _ _ h1 h2)
    · exact Or.inl (he2 ▸ h1)
  · rcases h2 with h2 | ⟨he2, hs2⟩
    · exact Or.inl (he1 ▸ h2)
    · exact Or.inr ⟨he1.trans he2, strLe_trans _ _ _ hs1 hs2⟩

/-- Sorted insertion is a permutation of consing. -/
theorem insPairSorted_perm (x : Str × Str) (l : List (Str × Str)) :
    List.Perm (insPairSorted x l) (x :: l) := by
  induction l with
  | nil => exact List.Perm.refl _
  | cons y ys ih =>
    by_cases h : pairLe x y = true
    · simp [insPairSorted, h]
    · simp only [insPairSorted, h, if_false]
      exact (ih.cons y).trans (List.Perm.swap x y ys)

/-- `sortPairs` permutes its input. -/
theorem sortPairs_perm (l : List (Str × Str)) : List.Perm (sortPairs l) l := by
  induction l with
  | nil => exact List.Perm.refl _
  | cons x xs ih => exact (insPairSorted_perm x (sortPairs xs)).trans (ih.cons x)

/-- Sorted insertion preserves `pairLe`-sortedness. -/
theorem insPairSorted_sorted (x : Str × Str) (l : List (Str × Str))
    (hl : List.Pairwise (fun a b => pairLe a b = true) l) :
    List.Pairwise (fun a b => pairLe a b = true) (insPairSorted x l) := by
  induction l with
  | nil => simp [insPairSorted]
  | cons y ys ih =>
    rcases List.pairwise_cons.1 hl with ⟨hy, hys⟩
    by_cases h : pairLe x y = true
    · simp only [insPairSorted, h, if_true]
      refine List.pairwise_cons.2 ⟨?_, hl⟩
      intro z hz
      rcases List.mem_cons.1 hz with rfl | hz
      · exact h
      · exact pairLe_trans x y z h (hy z hz)
    · simp only [insPairSorted, h, if_false]
      refine List.pairwise_cons.2 ⟨?_, ih hys⟩
      intro z hz
      have hz2 := (insPairSorted_perm x ys).mem_iff.1 hz
      rcases List.mem_cons.1 hz2 with rfl | hz2
      · rcases pairLe_total z y with h2 | h2
        · exact absurd h2 h
        · exact h2
      · exact hy z hz2

/-- `sortPairs` sorts by `pairLe`. -/
theorem sortPairs_sorted (l : List (Str × Str)) :
    List.Pairwise (fun a b => pairLe a b = true) (sortPairs l) := by
  induction l with
  | nil => simp [sortPairs]
  | cons x xs ih => exact insPairSorted_sorted x (sortPairs xs) ih

/-- A pair surviving deduplication carries a code outside `seen`. -/
theorem dedup_not_seen (pairs : List (Str × Str)) (seen : List Str) (c s : Str)
    (h : (c, s) ∈ dedupByCodeAux seen pairs) : c ∉ seen := by
  induction pairs generalizing seen with
  | nil => cases h
  | cons p rest ih =>
    obtain ⟨c0, s0⟩ := p
    by_cases h0 : c0 ∈ seen
    · simp only [dedupByCodeAux, h0, if_true] at h
      exact ih seen h
    · simp only [dedupByCodeAux, h0, if_false] at h
      rcases List.mem_cons.1 h with heq | htail
      · obtain ⟨rfl, rfl⟩ := Prod.mk.injEq .. ▸ heq
        exact h0
      · exact fun hc => ih (c0 :: seen) htail (List.mem_cons_of_mem _ hc)

/-- A pair surviving deduplication is the first occurrence of its code
in the submitted iteration order. -/
theorem dedup_first_source (pairs : List (Str × Str)) (seen : List Str) (c s : Str)
    (h : (c, s) ∈ dedupByCodeAux seen pairs) : firstSourceOf pairs c = some s := by
  induction pairs generalizing seen with
  | nil => cases h
  | cons p rest ih =>
    obtain ⟨c0, s0⟩ := p
    by_cases h0 : c0 ∈ seen
    · simp only [dedupByCodeAux, h0, if_true] at h
      have hne : ¬c0 = c := fun heq => (dedup_not_seen rest seen c s h) (heq ▸ h0)
      simp only [firstSourceOf]
      rw [List.find?_cons_of_neg _ (by simp [hne])]
      exact ih seen h
    · simp only [dedupByCodeAux, h0, if_false] at h
      rcases List.mem_cons.1 h with heq | htail
      · obtain ⟨rfl, rfl⟩ := Prod.mk.injEq .. ▸ heq
        simp only [firstSourceOf]
        rw [List.find?_cons_of_pos _ (by simp)]
        rfl
      · have hnotin := dedup_not_seen rest (c0 :: seen) c s htail
        have hne : ¬c0 = c := fun heq => hnotin (heq ▸ List.mem_cons_self c0 seen)
        simp only [firstSourceOf]
        rw [List.find?_cons_of_neg _ (by simp [hne])]
        exact ih (c0 :: seen) htail

/-- Every submitted code outside `seen` survives deduplication with
some attributed source. -/
theorem dedup_complete (pairs : List (Str × Str)) (seen : List Str) (c : Str)
    (hc : c ∉ seen) (h : ∃ s, (c, s) ∈ pairs) :
    ∃ t, (c, t) ∈ dedupByCodeAux seen pairs := by
  induction pairs generalizing seen with
  | nil =>
    obtain ⟨s, hs⟩ := h
    cases hs
  | cons p rest ih =>
    obtain ⟨c0, s0⟩ := p
    obtain ⟨s, hs⟩ := h
    by_cases h0 : c0 ∈ seen
    · simp only [dedupByCodeAux, h0, if_true]
      rcases List.mem_cons.1 hs with heq | htail
      · obtain ⟨rfl, rfl⟩ := Prod.mk.injEq .. ▸ heq
        exact absurd h0 hc
      · exact ih seen hc ⟨s, htail⟩
    · simp only [dedupByCodeAux, h0, if_false]
      by_cases hcc : c = c0
      · subst hcc
        exact ⟨s0, List.mem_cons_self ..⟩
      · rcases List.mem_cons.1 hs with heq | htail
        · obtain ⟨rfl, rfl⟩ := Prod.mk.injEq .. ▸ heq
          exact absurd rfl hcc
        · obtain ⟨t, ht⟩ := ih (c0 :: seen)
            (fun hmem => (List.mem_cons.1 hmem).elim hcc hc) ⟨s, htail⟩
          exact ⟨t, List.mem_cons_of_mem _ ht⟩

/-- Deduplication yields pairwise-distinct codes. -/
theorem dedup_codes_nodup (pairs : List (Str × Str)) (seen : List Str) :
    List.Nodup ((dedupByCodeAux seen pairs).map Prod.fst) := by
  induction pairs generalizing seen with
  | nil => simp [dedupByCodeAux]
  | cons p rest ih =>
    obtain ⟨c0, s0⟩ := p
    by_cases h0 : c0 ∈ seen
    · simp only [dedupByCodeAux, h0, if_true]
      exact ih seen
    · simp only [dedupByCodeAux, h0, if_false, List.map_cons]
      refine List.nodup_cons.2 ⟨?_, ih (c0 :: seen)⟩
      intro hmem
      obtain ⟨⟨c1, s1⟩, hp, he⟩ := List.mem_map.1 hmem
      simp only at he
      exact dedup_not_seen rest (c0 :: seen) c1 s1 hp
        (by rw [he]; exact List.mem_cons_self ..)

/-- The aggregated pairs carry pairwise-distinct codes. -/
theorem aggregate_codes_nodup (found : List (Str × Str)) :
    List.Nodup ((aggregatePairs found).map Prod.fst) :=
  (((sortPairs_perm (dedupByCodeAux [] found)).map Prod.fst).nodup_iff).2
    (dedup_codes_nodup found [])

/-- The aggregated pairs are strictly sorted ascending by code. -/
theorem aggregate_sorted_strict (found : List (Str × Str)) :
    List.Pairwise (fun p q : Str × Str => strLt p.1 q.1 = true)
      (aggregatePairs found) := by
  have hs : List.Pairwise (fun a b => pairLe a b = true) (aggregatePairs found) :=
    sortPairs_sorted (dedupByCodeAux [] found)
  have hn : List.Pairwise (fun p q : Str × Str => p.1 ≠ q.1) (aggregatePairs found) :=
    List.pairwise_map.1 (aggregate_codes_nodup found)
  refine (hs.and hn).imp ?_
  intro p q hpq
  obtain ⟨h1, h2⟩ := hpq
  simp only [pairLe, Bool.or_eq_true, Bool.and_eq_true, decide_eq_true_eq] at h1
  rcases h1 with h1 | ⟨he, _⟩
  · exact h1
  · exact absurd he h2

/-- A resolved first source is a code of the raw result. -/
theorem firstSourceOf_mem (found : List (Str × Str)) (c s : Str)
    (h : firstSourceOf found c = some s) : c ∈ found.map Prod.fst := by
  simp only [firstSourceOf] at h
  obtain ⟨q, hq, hq2⟩ := Option.map_eq_some'.1 h
  have hmem := List.mem_of_find?_eq_some hq
  have hpred := List.find?_some hq
  simp only [decide_eq_true_eq] at hpred
  exact List.mem_map.2 ⟨q, hmem, hpred⟩

/-- With pairwise-distinct codes, a submitted fresh pair is persisted
verbatim (code, source and the run's timestamp). -/
theorem store_inserts_record (pairs : List (Str × Str)) (st : List CodeRecord)
    (now : Nat) (c s : Str) (hnd : List.Nodup (pairs.map Prod.fst))
    (hp : (c, s) ∈ pairs) (hc : c ∉ codesOf st) :
    (⟨c, s, now⟩ : CodeRecord) ∈ (store_new_codes st pairs now).2 := by
  induction pairs generalizing st with
  | nil => cases hp
  | cons p rest ih =>
    obtain ⟨c0, s0⟩ := p
    have hnd2 : (∀ x : Str, (c0, x) ∉ rest) ∧ (rest.map Prod.fst).Nodup := by
      simpa using hnd
    rcases List.mem_cons.1 hp with heq | htail
    · obtain ⟨rfl, rfl⟩ := Prod.mk.injEq .. ▸ heq
      simp only [store_new_codes, insertCode, hc, if_false]
      exact store_new_codes_keeps rest _ now _ (by simp)
    · have hne : c ≠ c0 := fun heq =>
        hnd2.1 s (by rw [← heq]; exact htail)
      by_cases h0 : c0 ∈ codesOf st
      · simp only [store_new_codes, insertCode, h0, if_true]
        exact ih st hnd2.2 htail hc
      · simp only [store_new_codes, insertCode, h0, if_false]
        apply ih _ hnd2.2 htail
        rw [codesOf_append]
        simp only [List.mem_append, not_or]
        exact ⟨hc, by simp [codesOf, hne]⟩

/-- Claim C4: the aggregation of `main` attributes each code to the
source of its first occurrence in iteration order, preserves exactly
the run's codes, hands the pairs to the store sorted strictly ascending
by code, and the record persisted for a fresh code carries the
first-occurrence source. -/
theorem c4_first_occurrence_attribution (found : List (Str × Str))
    (st : List CodeRecord) (now : Nat) :
    List.Pairwise (fun p q : Str × Str => strLt p.1 q.1 = true)
      (aggregatePairs found) ∧
    (∀ c s, (c, s) ∈ aggregatePairs found → firstSourceOf found c = some s) ∧
    (∀ c, c ∈ (aggregatePairs found).map Prod.fst ↔ c ∈ found.map Prod.fst) ∧
    (∀ c s, (c, s) ∈ aggregatePairs found → c ∉ codesOf st →
      (⟨c, s, now⟩ : CodeRecord) ∈
        (store_new_codes st (aggregatePairs found) now).2) := by
  refine ⟨aggregate_sorted_strict found, ?_, ?_, ?_⟩
  · intro c s hmem
    exact dedup_first_source found [] c s
      ((sortPairs_perm (dedupByCodeAux [] found)).mem_iff.1 hmem)
  · intro c
    constructor
    · intro hmem
      obtain ⟨p, hp, rfl⟩ := List.mem_map.1 hmem
      have hd : (p.1, p.2) ∈ dedupByCodeAux [] found := by
        simpa using (sortPairs_perm (dedupByCodeAux [] found)).mem_iff.1 hp
      exact firstSourceOf_mem found p.1 p.2 (dedup_first_source found [] p.1 p.2 hd)
    · intro hmem
      obtain ⟨p, hp, rfl⟩ := List.mem_map.1 hmem
      obtain ⟨t, ht⟩ := dedup_complete found [] p.1 (List.not_mem_nil p.1)
        ⟨p.2, by simpa using hp⟩
      exact List.mem_map.2
        ⟨(p.1, t), (sortPairs_perm (dedupByCodeAux [] found)).mem_iff.2 ht, rfl⟩
  · intro c s hmem hc
    exact store_inserts_record (aggregatePairs found) st now c s
      (aggregate_codes_nodup found) hmem hc

/-- The raw accumulated result used by the claim C4 witness: the code
`CODE-BBBB` is produced by two sources, `http://one` first. -/
def foundRun : List (Str × Str) :=
  [(toS "CODE-BBBB", toS "http://one"), (toS "CODE-AAAA", toS "http://two"),
   (toS "CODE-BBBB", toS "http://three")]

/-- Witness for claim C4: the duplicated code is attributed to the
first-processed source and persisted with it. -/
theorem c4_first_occurrence_attribution_witness :
    firstSourceOf foundRun (toS "CODE-BBBB") = some (toS "http://one") ∧
    (⟨toS "CODE-BBBB", toS "http://one", 3⟩ : CodeRecord)
      ∈ (store_new_codes [] (aggregatePairs foundRun) 3).2 :=
  ⟨(c4_first_occurrence_attribution foundRun [] 3).2.1 (toS "CODE-BBBB")
      (toS "http://one") (by decide),
   (c4_first_occurrence_attribution foundRun [] 3).2.2.2 (toS "CODE-BBBB")
      (toS "http://one") (by decide) (by decide)⟩
